import Mathlib

/-!
Shallow embedding of `clrs/_src/algorithms/searching.py`.

Arrays are modelled as `List ℤ` (element arrays) and `List ℕ` (position
arrays).  In-place element writes (`A[i] = v`) become `List.set`, reads
(`A[i]`) become `List.getD _ 0`, and the three-statement swap idiom
(`tmp = A[i]; A[i] = A[j]; A[j] = tmp`) becomes `gswap`.  Python `for`
loops are embedded as structural recursion on the (exact) iteration
count, and `while` loops as structural recursion on a fuel that is
provably sufficient at every call site.  Normalised probe fields
(`target * 1.0 / A.shape[0]`, `i_rank`) are modelled in `ℚ`.
-/

namespace Searching

/-- The swap idiom `tmp = l[i]; l[i] = l[j]; l[j] = tmp` on a list. -/
def gswap {α : Type} (d : α) (l : List α) (i j : ℕ) : List α :=
  (l.set i (l.getD j d)).set j (l.getD i d)

/-- One HINT record pushed by `quickselect`'s `partition`:
`pred_h` is the copied position array, `pf rf if_ jf` are the raw indices
fed to `mask_one` for the fields `p`, `r`, `i`, `j`, and `i_rank`,
`target` the two normalised scalar fields. -/
structure QSHint where
  pred_h : List ℕ
  pf : ℕ
  rf : ℕ
  if_ : ℕ
  jf : ℕ
  i_rank : ℚ
  target : ℚ
deriving DecidableEq, Repr

/-- The scan loop `for j in range(p, r)` of `partition`, with `i1 = i + 1`
(the Python scan keeps `i` one below the boundary of the `<= pivot`
region).  `fuel` is the exact remaining iteration count `r - j`.
Returns the element array, position array, final `i1` and the HINT
records pushed (one per scan step, appended in order). -/
def partitionGo (x : ℤ) (n p r tgt : ℕ) :
    ℕ → ℕ → ℕ → List ℤ → List ℕ → List QSHint →
    List ℤ × List ℕ × ℕ × List QSHint
  | 0, _, i1, A, P, hs => (A, P, i1, hs)
  | fuel + 1, j, i1, A, P, hs =>
    if A.getD j 0 ≤ x then
      let A2 := gswap 0 A i1 j
      let P2 := gswap 0 P i1 j
      partitionGo x n p r tgt fuel (j + 1) (i1 + 1) A2 P2
        (hs ++ [⟨P2, P2.getD p 0, P2.getD r 0, P2.getD (i1 + 1) 0, P2.getD j 0,
                Rat.divInt (i1 + 1) n, Rat.divInt tgt n⟩])
    else
      partitionGo x n p r tgt fuel (j + 1) i1 A P
        (hs ++ [⟨P, P.getD p 0, P.getD r 0, P.getD i1 0, P.getD j 0,
                Rat.divInt i1 n, Rat.divInt tgt n⟩])

/-- `partition(A, A_pos, p, r, target, probes)`: Lomuto partition of the
window `[p, r]` with pivot `A[r]`, swapping the position array in
lockstep; returns the permuted arrays, the pivot's final index `q` and
all HINT records (scan hints plus the closing hint). -/
def partition (A : List ℤ) (P : List ℕ) (p r tgt n : ℕ) :
    List ℤ × List ℕ × ℕ × List QSHint :=
  let x := A.getD r 0
  let z := partitionGo x n p r tgt (r - p) p p A P []
  let q := z.2.2.1
  let A2 := gswap 0 z.1 q r
  let P2 := gswap 0 z.2.1 q r
  (A2, P2, q,
    z.2.2.2 ++ [⟨P2, P2.getD p 0, P2.getD r 0, P2.getD q 0, P2.getD r 0,
                Rat.divInt ((q : ℤ) - (p : ℤ)) n, Rat.divInt tgt n⟩])

/-- The recursion of `quickselect` over the window `[p, r]` with target
rank `i` (relative to the window); `n` is the length of the original
array (`A.shape[0]` stays the full length throughout, the array is
permuted in place).  `fuel` bounds the recursion depth; `n` is always
sufficient since the window shrinks at every call. -/
def quickselectGo (n : ℕ) :
    ℕ → List ℤ → List ℕ → ℕ → ℕ → ℕ → List QSHint →
    Option (ℤ × List ℤ × List ℕ × List QSHint)
  | 0, _, _, _, _, _, _ => none
  | fuel + 1, A, P, p, r, i, hs =>
    let z := partition A P p r i n
    let q := z.2.2.1
    let k := q - p
    let hs2 := hs ++ z.2.2.2
    if i = k then some (z.1.getD q 0, z.1, z.2.1, hs2)
    else if i < k then quickselectGo n fuel z.1 z.2.1 p (q - 1) i hs2
    else quickselectGo n fuel z.1 z.2.1 (q + 1) r (i - k - 1) hs2

/-- Top-level `quickselect(A, i)` (rank `i` supplied explicitly):
`A_pos = arange(n)`, `p = 0`, `r = n - 1`.  Returns the selected value,
the final element and position arrays and the full HINT trace. -/
def quickselectFull (A : List ℤ) (i : ℕ) :
    Option (ℤ × List ℤ × List ℕ × List QSHint) :=
  quickselectGo A.length A.length A (List.range A.length) 0 (A.length - 1) i []

/-- The value returned by `quickselect(A, i)`. -/
def quickselect (A : List ℤ) (i : ℕ) : Option ℤ :=
  (quickselectFull A i).map (fun z => z.1)

/-- The HINT trace of one top-level `quickselect(A, i)` invocation. -/
def qsHints (A : List ℤ) (i : ℕ) : List QSHint :=
  match quickselectFull A i with
  | some z => z.2.2.2
  | none => []

/-- The loop `for i in range(1, A.shape[0])` of `minimum`, threading the
(read-only) array through the state; `fuel` is the exact remaining
iteration count.  Returns the array and the incumbent minimum index. -/
def minimumGo : ℕ → ℕ → ℕ → List ℤ → List ℤ × ℕ
  | 0, _, min_, A => (A, min_)
  | fuel + 1, i, min_, A =>
    minimumGo fuel (i + 1) (if A.getD min_ 0 > A.getD i 0 then i else min_) A

/-- `minimum(A)`: index of the first occurrence of the minimal value. -/
def minimum (A : List ℤ) : ℕ :=
  (minimumGo (A.length - 1) 1 0 A).2

/-- `parallel_find(x, A)`: `np.where(A == x)[0][0]`, i.e. the first index
holding `x` (`none` models the fatal indexing error when absent).  The
array is returned alongside to expose the (absent) in-place effect. -/
def parallel_find (x : ℤ) (A : List ℤ) : List ℤ × Option ℕ :=
  (A, A.findIdx? (fun a => a == x))

/-- The scan `while i < len(A) and x > A[i]: B[i] = 0; i = i + 1` of
`parallel_search`.  `fuel` is sufficient at every call site
(`A.length` iterations at most). -/
def psGo (x : ℤ) : ℕ → List ℤ → List ℤ → ℕ → List ℤ × List ℤ × ℕ
  | 0, A, B, i => (A, B, i)
  | fuel + 1, A, B, i =>
    if i < A.length ∧ x > A.getD i 0 then psGo x fuel A (B.set i 0) (i + 1)
    else (A, B, i)

/-- `parallel_search(x, A)`: `B = np.ones_like(A)`, then the scan;
returns the array, the mask `B` (its single HINT) and the result `i`. -/
def parallel_search (x : ℤ) (A : List ℤ) : List ℤ × List ℤ × ℕ :=
  psGo x A.length A (List.replicate A.length 1) 0

/-- The mask `B` pushed in `parallel_search`'s single HINT. -/
def psB (x : ℤ) (A : List ℤ) : List ℤ := (parallel_search x A).2.1

/-- The integer result (OUTPUT) of `parallel_search`. -/
def psResult (x : ℤ) (A : List ℤ) : ℕ := (parallel_search x A).2.2

/-- The list of HINT vectors pushed by `parallel_search` (exactly one). -/
def psHints (x : ℤ) (A : List ℤ) : List (List ℤ) := [psB x A]

/-- The loop `while low < high` of `binary_search`, threading the
(read-only) array; returns the array, the final `high` and the number
of loop iterations (= number of non-initial HINT pushes).  `fuel` is
sufficient at every call site since `high - low` shrinks every step. -/
def bsGo (x : ℤ) : ℕ → List ℤ → ℕ → ℕ → List ℤ × ℕ × ℕ
  | 0, A, _, high => (A, high, 0)
  | fuel + 1, A, low, high =>
    if low < high then
      let mid := (low + high) / 2
      if x ≤ A.getD mid 0 then
        let z := bsGo x fuel A low mid
        (z.1, z.2.1, z.2.2 + 1)
      else
        let z := bsGo x fuel A (mid + 1) high
        (z.1, z.2.1, z.2.2 + 1)
    else (A, high, 0)

/-- `binary_search(x, A)`: `low = 0`, `high = len(A) - 1`, loop, return
`high`. -/
def binary_search (x : ℤ) (A : List ℤ) : ℕ :=
  (bsGo x A.length A 0 (A.length - 1)).2.1

/-- Total number of HINT pushes of `binary_search`: one initial HINT
plus one per loop iteration. -/
def bsHintCount (x : ℤ) (A : List ℤ) : ℕ :=
  1 + (bsGo x A.length A 0 (A.length - 1)).2.2

/-- The window `A[p..r]` (both ends included) of the array. -/
def window (A : List ℤ) (p r : ℕ) : List ℤ := (A.drop p).take (r + 1 - p)

/-- The reference sort used to state order statistics. -/
def isort (A : List ℤ) : List ℤ := List.insertionSort (· ≤ ·) A

/-! ### Basic facts about `List.getD`, `List.set` and `gswap` -/

theorem getD_set_self {α : Type} {l : List α} {a d : α} {i : ℕ}
    (h : i < l.length) : (l.set i a).getD i d = a := by
  rw [List.getD_eq_getElem _ _ (by simpa using h), List.getElem_set_self]

theorem getD_set_ne {α : Type} {l : List α} {a d : α} {i m : ℕ}
    (hne : i ≠ m) : (l.set i a).getD m d = l.getD m d := by
  rcases Nat.lt_or_ge m l.length with h | h
  · rw [List.getD_eq_getElem _ _ (by simpa using h), List.getD_eq_getElem _ _ h,
      List.getElem_set_ne hne]
  · rw [List.getD_eq_default _ _ (by simpa using h), List.getD_eq_default _ _ h]

theorem length_gswap {α : Type} (d : α) (l : List α) (i j : ℕ) :
    (gswap d l i j).length = l.length := by
  simp [gswap]

theorem getD_gswap_snd {α : Type} {d : α} {l : List α} {i j : ℕ}
    (hj : j < l.length) : (gswap d l i j).getD j d = l.getD i d := by
  rw [gswap, getD_set_self (by simpa using hj)]

theorem getD_gswap_fst {α : Type} {d : α} {l : List α} {i j : ℕ}
    (hi : i < l.length) (hj : j < l.length) :
    (gswap d l i j).getD i d = l.getD j d := by
  by_cases hij : i = j
  · subst hij; exact getD_gswap_snd hj
  · rw [gswap, getD_set_ne (fun h => hij h.symm), getD_set_self hi]

theorem getD_gswap_other {α : Type} {d : α} {l : List α} {i j m : ℕ}
    (hmi : m ≠ i) (hmj : m ≠ j) :
    (gswap d l i j).getD m d = l.getD m d := by
  rw [gswap, getD_set_ne (fun h => hmj h.symm), getD_set_ne (fun h => hmi h.symm)]

theorem set_cons_perm {α : Type} (d : α) :
    ∀ (t : List α) (m : ℕ) (a : α), m < t.length →
      (t.getD m d :: t.set m a).Perm (a :: t)
  | b :: t', 0, a, _ => by
    simpa using List.Perm.swap a b t'
  | b :: t', m + 1, a, h => by
    have hm : m < t'.length := by simpa using h
    have ih := set_cons_perm d t' m a hm
    have h1 : ((b :: t').getD (m + 1) d :: (b :: t').set (m + 1) a) =
        (t'.getD m d :: b :: t'.set m a) := by simp [List.getD]
    rw [h1]
    exact ((List.Perm.swap b (t'.getD m d) _).trans (ih.cons b)).trans
      (List.Perm.swap a b t')

theorem gswap_perm {α : Type} (d : α) :
    ∀ (l : List α) (i j : ℕ), i < l.length → j < l.length →
      (gswap d l i j).Perm l
  | a :: t, 0, 0, _, _ => by
    simp [gswap, List.getD]
  | a :: t, 0, j' + 1, _, hj => by
    have hj' : j' < t.length := by simpa using hj
    have h1 : gswap d (a :: t) 0 (j' + 1) = t.getD j' d :: t.set j' a := by
      simp [gswap, List.getD]
    rw [h1]; exact set_cons_perm d t j' a hj'
  | a :: t, i' + 1, 0, hi, _ => by
    have hi' : i' < t.length := by simpa using hi
    have h1 : gswap d (a :: t) (i' + 1) 0 = t.getD i' d :: t.set i' a := by
      simp [gswap, List.getD]
    rw [h1]; exact set_cons_perm d t i' a hi'
  | a :: t, i' + 1, j' + 1, hi, hj => by
    have hi' : i' < t.length := by simpa using hi
    have hj' : j' < t.length := by simpa using hj
    have h1 : gswap d (a :: t) (i' + 1) (j' + 1) = a :: gswap d t i' j' := by
      simp [gswap, List.getD]
    rw [h1]; exact (gswap_perm d t i' j' hi' hj').cons a

/-! ### Facts about `window` -/

theorem length_window {A : List ℤ} {p r : ℕ} (hr : r < A.length) :
    (window A p r).length = r + 1 - p := by
  simp only [window, List.length_take, List.length_drop]
  omega

theorem getD_window {A : List ℤ} {p r m : ℕ} (hm : m < r + 1 - p)
    (hr : r < A.length) : (window A p r).getD m 0 = A.getD (p + m) 0 := by
  have hlen : m < (window A p r).length := by rw [length_window hr]; exact hm
  have hpm : p + m < A.length := by omega
  rw [List.getD_eq_getElem _ _ hlen, List.getD_eq_getElem _ _ hpm]
  simp only [window]
  rw [List.getElem_take, List.getElem_drop]

theorem window_decomp {A : List ℤ} {p r : ℕ} (hp : p ≤ r) (hr : r < A.length) :
    A = A.take p ++ window A p r ++ A.drop (r + 1) := by
  conv_lhs => rw [← List.take_append_drop p A]
  rw [List.append_assoc]
  congr 1
  conv_lhs => rw [← List.take_append_drop (r + 1 - p) (A.drop p)]
  rw [window, List.drop_drop]
  congr 2
  omega

theorem window_left {A : List ℤ} {p q r : ℕ} (h1 : p + 1 ≤ q) (hqr : q ≤ r) :
    window A p (q - 1) = (window A p r).take (q - p) := by
  simp only [window, List.take_take]
  congr 1
  omega

theorem window_right {A : List ℤ} {p q r : ℕ} (hpq : p ≤ q) (hqr : q ≤ r) :
    window A (q + 1) r = (window A p r).drop (q - p + 1) := by
  simp only [window, List.drop_take, List.drop_drop]
  congr 1
  · omega
  · congr 1; omega

theorem window_perm_of_frame {A2 A : List ℤ} {p r : ℕ}
    (hlen : A2.length = A.length) (hperm : A2.Perm A)
    (hpr : p ≤ r) (hr : r < A.length)
    (hlow : ∀ m, m < p → A2.getD m 0 = A.getD m 0)
    (hhigh : ∀ m, r < m → A2.getD m 0 = A.getD m 0) :
    (window A2 p r).Perm (window A p r) := by
  have hr2 : r < A2.length := by omega
  have e1 : A2.take p = A.take p := by
    apply List.ext_getElem (by simp [hlen])
    intro m h1 h2
    have hm : m < p := by simp at h1; omega
    have hmA : m < A.length := by simp at h2; omega
    have hmA2 : m < A2.length := by omega
    rw [List.getElem_take, List.getElem_take,
      ← List.getD_eq_getElem A2 0 hmA2, ← List.getD_eq_getElem A 0 hmA]
    exact hlow m hm
  have e2 : A2.drop (r + 1) = A.drop (r + 1) := by
    apply List.ext_getElem (by simp [hlen])
    intro m h1 h2
    have hmA : r + 1 + m < A.length := by simp at h2; omega
    have hmA2 : r + 1 + m < A2.length := by omega
    rw [List.getElem_drop, List.getElem_drop,
      ← List.getD_eq_getElem A2 0 hmA2, ← List.getD_eq_getElem A 0 hmA]
    exact hhigh (r + 1 + m) (by omega)
  have h3 : (A.take p ++ (window A2 p r ++ A.drop (r + 1))).Perm
      (A.take p ++ (window A p r ++ A.drop (r + 1))) := by
    have step1 : A.take p ++ (window A2 p r ++ A.drop (r + 1)) = A2 := by
      rw [← e1, ← e2, ← List.append_assoc]
      exact (window_decomp hpr hr2).symm
    have step2 : A.take p ++ (window A p r ++ A.drop (r + 1)) = A := by
      rw [← List.append_assoc]
      exact (window_decomp hpr hr).symm
    rw [step1, step2]
    exact hperm
  have h4 := (List.perm_append_left_iff _).mp h3
  exact (List.perm_append_right_iff _).mp h4

/-! ### The reference sort of a partitioned list splits at the pivot -/

theorem isort_sorted (u : List ℤ) : List.Sorted (· ≤ ·) (isort u) :=
  List.sorted_insertionSort _ u

theorem isort_perm (u : List ℤ) : (isort u).Perm u :=
  List.perm_insertionSort _ u

theorem isort_length (u : List ℤ) : (isort u).length = u.length :=
  List.length_insertionSort _ u

theorem isort_split {u : List ℤ} {k : ℕ} (hk : k < u.length)
    (hle : ∀ m, m < k → u.getD m 0 ≤ u.getD k 0)
    (hgt : ∀ m, k < m → m < u.length → u.getD k 0 < u.getD m 0) :
    isort u = isort (u.take k) ++ u.getD k 0 :: isort (u.drop (k + 1)) := by
  have hdecomp : u = u.take k ++ u.getD k 0 :: u.drop (k + 1) := by
    conv_lhs => rw [← List.take_append_drop k u]
    congr 1
    rw [List.drop_eq_getElem_cons hk, List.getD_eq_getElem _ _ hk]
  have hperm : (isort (u.take k) ++ u.getD k 0 :: isort (u.drop (k + 1))).Perm u := by
    have p1 := isort_perm (u.take k)
    have p2 := isort_perm (u.drop (k + 1))
    have := p1.append (p2.cons (u.getD k 0))
    exact this.trans (by rw [← hdecomp])
  have smem1 : ∀ a ∈ isort (u.take k), a ≤ u.getD k 0 := by
    intro a ha
    have ha2 : a ∈ u.take k := (isort_perm _).subset ha
    obtain ⟨m, hm, rfl⟩ := List.mem_iff_getElem.mp ha2
    have hmk : m < k := by simp at hm; omega
    have hmu : m < u.length := by simp at hm; omega
    rw [List.getElem_take, ← List.getD_eq_getElem u 0 hmu]
    exact hle m hmk
  have smem2 : ∀ a ∈ isort (u.drop (k + 1)), u.getD k 0 ≤ a := by
    intro a ha
    have ha2 : a ∈ u.drop (k + 1) := (isort_perm _).subset ha
    obtain ⟨m, hm, rfl⟩ := List.mem_iff_getElem.mp ha2
    have hmu : k + 1 + m < u.length := by simp at hm; omega
    rw [List.getElem_drop, ← List.getD_eq_getElem u 0 hmu]
    exact le_of_lt (hgt (k + 1 + m) (by omega) hmu)
  have hsortedR : List.Sorted (· ≤ ·)
      (isort (u.take k) ++ u.getD k 0 :: isort (u.drop (k + 1))) := by
    apply List.pairwise_append.mpr
    refine ⟨isort_sorted _, ?_, ?_⟩
    · exact List.sorted_cons.mpr ⟨smem2, isort_sorted _⟩
    · intro a ha b hb
      rcases List.mem_cons.mp hb with hb | hb
      · exact hb ▸ smem1 a ha
      · exact le_trans (smem1 a ha) (smem2 b hb)
  exact List.eq_of_perm_of_sorted ((isort_perm u).trans hperm.symm)
    (isort_sorted u) hsortedR

/-! ### Invariants of the partition scan loop -/

theorem divInt_natCast (t n : ℕ) : Rat.divInt t n = (t : ℚ) / n := by
  rw [Rat.divInt_eq_div]
  norm_num

theorem partitionGo_spec (x : ℤ) (n p r tgt : ℕ) :
    ∀ (fuel j i1 : ℕ) (A : List ℤ) (P : List ℕ) (hs : List QSHint),
      j + fuel = r → r < A.length → P.length = A.length →
      p ≤ i1 → i1 ≤ j →
      (∀ m, p ≤ m → m < i1 → A.getD m 0 ≤ x) →
      (∀ m, i1 ≤ m → m < j → x < A.getD m 0) →
      i1 ≤ (partitionGo x n p r tgt fuel j i1 A P hs).2.2.1 ∧
      (partitionGo x n p r tgt fuel j i1 A P hs).2.2.1 ≤ i1 + fuel ∧
      (partitionGo x n p r tgt fuel j i1 A P hs).1.length = A.length ∧
      (partitionGo x n p r tgt fuel j i1 A P hs).2.1.length = P.length ∧
      (partitionGo x n p r tgt fuel j i1 A P hs).1.Perm A ∧
      (partitionGo x n p r tgt fuel j i1 A P hs).2.1.Perm P ∧
      (∀ m, m < p ∨ r ≤ m →
        (partitionGo x n p r tgt fuel j i1 A P hs).1.getD m 0 = A.getD m 0) ∧
      (∀ m, p ≤ m → m < (partitionGo x n p r tgt fuel j i1 A P hs).2.2.1 →
        (partitionGo x n p r tgt fuel j i1 A P hs).1.getD m 0 ≤ x) ∧
      (∀ m, (partitionGo x n p r tgt fuel j i1 A P hs).2.2.1 ≤ m → m < r →
        x < (partitionGo x n p r tgt fuel j i1 A P hs).1.getD m 0) ∧
      (∀ h ∈ (partitionGo x n p r tgt fuel j i1 A P hs).2.2.2,
        h ∈ hs ∨ (h.pred_h.Perm P ∧ h.target = (tgt : ℚ) / n))
  | 0, j, i1, A, P, hs, hj, _hr, _hP, _hpi, _hij, H2, H3 =>
    ⟨le_refl i1, Nat.le_add_right i1 0, rfl, rfl, List.Perm.refl A,
      List.Perm.refl P, fun _ _ => rfl, fun m hm1 hm2 => H2 m hm1 hm2,
      fun m hm1 hm2 => H3 m hm1 (by omega),
      fun _ hh => Or.inl hh⟩
  | fuel + 1, j, i1, A, P, hs, hj, hr, hP, hpi, hij, H2, H3 => by
    have hjr : j < r := by omega
    have hjA : j < A.length := by omega
    have hi1A : i1 < A.length := by omega
    have hjP : j < P.length := by omega
    have hi1P : i1 < P.length := by omega
    by_cases hcond : A.getD j 0 ≤ x
    · -- swap branch
      have hunfold : partitionGo x n p r tgt (fuel + 1) j i1 A P hs =
          partitionGo x n p r tgt fuel (j + 1) (i1 + 1)
            (gswap 0 A i1 j) (gswap 0 P i1 j)
            (hs ++ [⟨gswap 0 P i1 j, (gswap 0 P i1 j).getD p 0,
              (gswap 0 P i1 j).getD r 0, (gswap 0 P i1 j).getD (i1 + 1) 0,
              (gswap 0 P i1 j).getD j 0, Rat.divInt (i1 + 1) n,
              Rat.divInt tgt n⟩]) := by
        simp only [partitionGo, if_pos hcond]
      have H2' : ∀ m, p ≤ m → m < i1 + 1 → (gswap 0 A i1 j).getD m 0 ≤ x := by
        intro m hm1 hm2
        rcases Nat.lt_or_ge m i1 with hmi | hmi
        · rw [getD_gswap_other (by omega) (by omega)]
          exact H2 m hm1 hmi
        · have hmeq : m = i1 := by omega
          subst hmeq
          rw [getD_gswap_fst hi1A hjA]
          exact hcond
      have H3' : ∀ m, i1 + 1 ≤ m → m < j + 1 → x < (gswap 0 A i1 j).getD m 0 := by
        intro m hm1 hm2
        rcases Nat.lt_or_ge m j with hmj | hmj
        · rw [getD_gswap_other (by omega) (by omega)]
          exact H3 m (by omega) hmj
        · have hmeq : m = j := by omega
          subst hmeq
          have hij' : i1 < m := by omega
          rw [getD_gswap_snd hjA]
          exact H3 i1 (le_refl _) hij'
      obtain ⟨c1, c2, c3, c4, c5, c6, c7, c8, c9, c10⟩ :=
        partitionGo_spec x n p r tgt fuel (j + 1) (i1 + 1)
          (gswap 0 A i1 j) (gswap 0 P i1 j)
          (hs ++ [⟨gswap 0 P i1 j, (gswap 0 P i1 j).getD p 0,
            (gswap 0 P i1 j).getD r 0, (gswap 0 P i1 j).getD (i1 + 1) 0,
            (gswap 0 P i1 j).getD j 0, Rat.divInt (i1 + 1) n,
            Rat.divInt tgt n⟩])
          (by omega) (by rw [length_gswap]; exact hr)
          (by rw [length_gswap, length_gswap]; exact hP)
          (by omega) (by omega) H2' H3'
      rw [hunfold]
      refine ⟨by omega, by omega, by rw [c3, length_gswap],
        by rw [c4, length_gswap], c5.trans (gswap_perm 0 A i1 j hi1A hjA),
        c6.trans (gswap_perm 0 P i1 j hi1P hjP), ?_, c8, c9, ?_⟩
      · intro m hm
        rw [c7 m hm, getD_gswap_other (by omega) (by omega)]
      · intro h hh
        rcases c10 h hh with hh2 | hh2
        · rcases List.mem_append.mp hh2 with hh3 | hh3
          · exact Or.inl hh3
          · have hh4 := List.mem_singleton.mp hh3
            subst hh4
            exact Or.inr ⟨gswap_perm 0 P i1 j hi1P hjP, divInt_natCast tgt n⟩
        · exact Or.inr ⟨hh2.1.trans (gswap_perm 0 P i1 j hi1P hjP), hh2.2⟩
    · -- no-swap branch
      have hunfold : partitionGo x n p r tgt (fuel + 1) j i1 A P hs =
          partitionGo x n p r tgt fuel (j + 1) i1 A P
            (hs ++ [⟨P, P.getD p 0, P.getD r 0, P.getD i1 0, P.getD j 0,
              Rat.divInt i1 n, Rat.divInt tgt n⟩]) := by
        simp only [partitionGo, if_neg hcond]
      have H3' : ∀ m, i1 ≤ m → m < j + 1 → x < A.getD m 0 := by
        intro m hm1 hm2
        rcases Nat.lt_or_ge m j with hmj | hmj
        · exact H3 m hm1 hmj
        · have hmeq : m = j := by omega
          subst hmeq
          omega
      obtain ⟨c1, c2, c3, c4, c5, c6, c7, c8, c9, c10⟩ :=
        partitionGo_spec x n p r tgt fuel (j + 1) i1 A P
          (hs ++ [⟨P, P.getD p 0, P.getD r 0, P.getD i1 0, P.getD j 0,
            Rat.divInt i1 n, Rat.divInt tgt n⟩])
          (by omega) hr hP hpi (by omega) H2 H3'
      rw [hunfold]
      refine ⟨c1, by omega, c3, c4, c5, c6, c7, c8, c9, ?_⟩
      intro h hh
      rcases c10 h hh with hh2 | hh2
      · rcases List.mem_append.mp hh2 with hh3 | hh3
        · exact Or.inl hh3
        · have hh4 := List.mem_singleton.mp hh3
          subst hh4
          exact Or.inr ⟨List.Perm.refl _, divInt_natCast tgt n⟩
      · exact Or.inr hh2

theorem partition_spec (A : List ℤ) (P : List ℕ) (p r tgt n : ℕ)
    (hpr : p ≤ r) (hr : r < A.length) (hP : P.length = A.length) :
    p ≤ (partition A P p r tgt n).2.2.1 ∧
    (partition A P p r tgt n).2.2.1 ≤ r ∧
    (partition A P p r tgt n).1.length = A.length ∧
    (partition A P p r tgt n).2.1.length = P.length ∧
    (partition A P p r tgt n).1.Perm A ∧
    (partition A P p r tgt n).2.1.Perm P ∧
    (∀ m, m < p ∨ r < m →
      (partition A P p r tgt n).1.getD m 0 = A.getD m 0) ∧
    (partition A P p r tgt n).1.getD (partition A P p r tgt n).2.2.1 0 =
      A.getD r 0 ∧
    (∀ m, p ≤ m → m < (partition A P p r tgt n).2.2.1 →
      (partition A P p r tgt n).1.getD m 0 ≤ A.getD r 0) ∧
    (∀ m, (partition A P p r tgt n).2.2.1 < m → m ≤ r →
      A.getD r 0 < (partition A P p r tgt n).1.getD m 0) ∧
    (∀ h ∈ (partition A P p r tgt n).2.2.2,
      h.pred_h.Perm P ∧ h.target = (tgt : ℚ) / n) := by
  obtain ⟨c1, c2, c3, c4, c5, c6, c7, c8, c9, c10⟩ :=
    partitionGo_spec (A.getD r 0) n p r tgt (r - p) p p A P []
      (by omega) hr hP (le_refl p) (le_refl p)
      (fun m hm1 hm2 => absurd (lt_of_le_of_lt hm1 hm2) (lt_irrefl p))
      (fun m hm1 hm2 => absurd (lt_of_le_of_lt hm1 hm2) (lt_irrefl p))
  set z0 := partitionGo (A.getD r 0) n p r tgt (r - p) p p A P [] with hz0
  set q := z0.2.2.1 with hq
  have hqr : q ≤ r := by omega
  have hqlen : q < z0.1.length := by omega
  have hrlen : r < z0.1.length := by omega
  have hqlenP : q < z0.2.1.length := by rw [c4, hP]; omega
  have hrlenP : r < z0.2.1.length := by rw [c4, hP]; omega
  have e1 : (partition A P p r tgt n).1 = gswap 0 z0.1 q r := by
    simp only [partition, ← hz0, ← hq]
  have e2 : (partition A P p r tgt n).2.1 = gswap 0 z0.2.1 q r := by
    simp only [partition, ← hz0, ← hq]
  have e3 : (partition A P p r tgt n).2.2.1 = q := by
    simp only [partition, ← hz0, ← hq]
  have e4 : (partition A P p r tgt n).2.2.2 =
      z0.2.2.2 ++ [⟨gswap 0 z0.2.1 q r, (gswap 0 z0.2.1 q r).getD p 0,
        (gswap 0 z0.2.1 q r).getD r 0, (gswap 0 z0.2.1 q r).getD q 0,
        (gswap 0 z0.2.1 q r).getD r 0, Rat.divInt ((q : ℤ) - (p : ℤ)) n,
        Rat.divInt tgt n⟩] := by
    simp only [partition, ← hz0, ← hq]
  rw [e1, e2, e3, e4]
  have hpiv : z0.1.getD r 0 = A.getD r 0 := c7 r (Or.inr (le_refl r))
  refine ⟨by omega, hqr, by rw [length_gswap, c3], by rw [length_gswap, c4],
    ?_, ?_, ?_, ?_, ?_, ?_, ?_⟩
  · exact (gswap_perm 0 z0.1 q r hqlen hrlen).trans c5
  · exact (gswap_perm 0 z0.2.1 q r hqlenP hrlenP).trans c6
  · intro m hm
    rw [getD_gswap_other (by omega) (by omega)]
    exact c7 m (by omega)
  · rw [getD_gswap_fst hqlen hrlen]
    exact hpiv
  · intro m hm1 hm2
    rw [getD_gswap_other (by omega) (by omega)]
    exact c8 m hm1 hm2
  · intro m hm1 hm2
    rcases Nat.lt_or_ge m r with hmr | hmr
    · rw [getD_gswap_other (by omega) (by omega)]
      exact c9 m (by omega) hmr
    · have hmeq : m = r := by omega
      subst hmeq
      have hqm : q < m := hm1
      rw [getD_gswap_snd hrlen]
      exact c9 q (le_refl q) (by omega)
  · intro h hh
    rcases List.mem_append.mp hh with hh2 | hh2
    · rcases c10 h hh2 with hh3 | hh3
      · exact absurd hh3 (List.not_mem_nil h)
      · exact hh3
    · have hh3 := List.mem_singleton.mp hh2
      subst hh3
      exact ⟨(gswap_perm 0 z0.2.1 q r hqlenP hrlenP).trans c6,
        divInt_natCast tgt n⟩

/-! ### Correctness of the quickselect recursion -/

theorem quickselectGo_spec (n : ℕ) :
    ∀ (fuel : ℕ) (A : List ℤ) (P : List ℕ) (p r i : ℕ) (hs : List QSHint),
      p ≤ r → r < A.length → P.length = A.length → i ≤ r - p →
      r - p < fuel →
      ∃ v A1 P1 hs1,
        quickselectGo n fuel A P p r i hs = some (v, A1, P1, hs1) ∧
        v = (isort (window A p r)).getD i 0 ∧
        ∀ h ∈ hs1, h ∈ hs ∨
          (h.pred_h.Perm P ∧ ∃ t, t ≤ i ∧ h.target = (t : ℚ) / n)
  | 0, A, P, p, r, i, hs => fun _ _ _ _ h5 => absurd h5 (Nat.not_lt_zero _)
  | fuel + 1, A, P, p, r, i, hs => fun hpr hr hP hi hfuel => by
    obtain ⟨p1, p2, p3, p4, p5, p6, p7, p8, p9, p10, p11⟩ :=
      partition_spec A P p r i n hpr hr hP
    rcases hzd : partition A P p r i n with ⟨ZA, ZPP, q, ZH⟩
    simp only [hzd] at p1 p2 p3 p4 p5 p6 p7 p8 p9 p10 p11
    have hrZA : r < ZA.length := by omega
    have wperm : (window ZA p r).Perm (window A p r) :=
      window_perm_of_frame p3 p5 hpr hr
        (fun m hm => p7 m (Or.inl hm)) (fun m hm => p7 m (Or.inr hm))
    have isort_eq : isort (window ZA p r) = isort (window A p r) :=
      List.eq_of_perm_of_sorted
        ((isort_perm _).trans (wperm.trans (isort_perm _).symm))
        (isort_sorted _) (isort_sorted _)
    have hul : (window ZA p r).length = r + 1 - p := length_window hrZA
    have hkq : q - p < (window ZA p r).length := by omega
    have upiv : (window ZA p r).getD (q - p) 0 = A.getD r 0 := by
      rw [getD_window (by omega) hrZA]
      have hpq : p + (q - p) = q := by omega
      rw [hpq]
      exact p8
    have hle : ∀ m, m < q - p →
        (window ZA p r).getD m 0 ≤ (window ZA p r).getD (q - p) 0 := by
      intro m hm
      rw [upiv, getD_window (by omega) hrZA]
      exact p9 (p + m) (by omega) (by omega)
    have hgt : ∀ m, q - p < m → m < (window ZA p r).length →
        (window ZA p r).getD (q - p) 0 < (window ZA p r).getD m 0 := by
      intro m hm1 hm2
      rw [upiv, getD_window (by omega) hrZA]
      exact p10 (p + m) (by omega) (by omega)
    have hsplit := isort_split hkq hle hgt
    have ltake : (isort ((window ZA p r).take (q - p))).length = q - p := by
      rw [isort_length, List.length_take, hul]
      omega
    have hbase : ∀ h ∈ hs ++ ZH, h ∈ hs ∨
        (h.pred_h.Perm P ∧ ∃ t, t ≤ i ∧ h.target = (t : ℚ) / n) := by
      intro h hh
      rcases List.mem_append.mp hh with hh2 | hh2
      · exact Or.inl hh2
      · exact Or.inr ⟨(p11 h hh2).1, i, le_refl i, (p11 h hh2).2⟩
    by_cases hik : i = q - p
    · -- found: i == k
      have hgoal : quickselectGo n (fuel + 1) A P p r i hs =
          some (ZA.getD q 0, ZA, ZPP, hs ++ ZH) := by
        simp only [quickselectGo, hzd]
        rw [if_pos hik]
      refine ⟨ZA.getD q 0, ZA, ZPP, hs ++ ZH, hgoal, ?_, hbase⟩
      rw [← isort_eq, hsplit]
      have h0 : (isort ((window ZA p r).take (q - p))).length ≤ i := by omega
      rw [List.getD_append_right _ _ _ _ h0]
      have h1 : i - (isort ((window ZA p r).take (q - p))).length = 0 := by
        omega
      rw [h1, List.getD_cons_zero, upiv]
      exact p8
    · by_cases hlt : i < q - p
      · -- recurse left
        have hq1 : p + 1 ≤ q := by omega
        obtain ⟨v, A1, P1, hs1, heq, hv, hh⟩ :=
          quickselectGo_spec n fuel ZA ZPP p (q - 1) i (hs ++ ZH)
            (by omega) (by omega) (by rw [p4, hP, ← p3]) (by omega) (by omega)
        have hgoal : quickselectGo n (fuel + 1) A P p r i hs =
            some (v, A1, P1, hs1) := by
          simp only [quickselectGo, hzd]
          rw [if_neg hik, if_pos hlt]
          exact heq
        refine ⟨v, A1, P1, hs1, hgoal, ?_, ?_⟩
        · rw [hv, ← isort_eq, hsplit]
          have hwl : window ZA p (q - 1) = (window ZA p r).take (q - p) :=
            window_left hq1 (by omega)
          rw [hwl, List.getD_append _ _ _ i (by omega)]
        · intro h hh1
          rcases hh h hh1 with hh2 | hh2
          · exact hbase h hh2
          · exact Or.inr ⟨hh2.1.trans p6,
              hh2.2.elim (fun t ht => ⟨t, le_trans ht.1 (by omega), ht.2⟩)⟩
      · -- recurse right
        have hgt2 : q - p < i := by omega
        have hqr2 : q + 1 ≤ r := by omega
        obtain ⟨v, A1, P1, hs1, heq, hv, hh⟩ :=
          quickselectGo_spec n fuel ZA ZPP (q + 1) r (i - (q - p) - 1)
            (hs ++ ZH) hqr2 (by omega) (by rw [p4, hP, ← p3]) (by omega)
            (by omega)
        have hgoal : quickselectGo n (fuel + 1) A P p r i hs =
            some (v, A1, P1, hs1) := by
          simp only [quickselectGo, hzd]
          rw [if_neg hik, if_neg hlt]
          exact heq
        refine ⟨v, A1, P1, hs1, hgoal, ?_, ?_⟩
        · rw [hv, ← isort_eq, hsplit]
          have hwr : window ZA (q + 1) r = (window ZA p r).drop (q - p + 1) :=
            window_right (by omega) (by omega)
          have h0 : (isort ((window ZA p r).take (q - p))).length ≤ i := by
            omega
          rw [hwr, List.getD_append_right _ _ _ _ h0]
          have h1 : i - (isort ((window ZA p r).take (q - p))).length =
              (i - (q - p) - 1) + 1 := by omega
          rw [h1, List.getD_cons_succ]
        · intro h hh1
          rcases hh h hh1 with hh2 | hh2
          · exact hbase h hh2
          · exact Or.inr ⟨hh2.1.trans p6,
              hh2.2.elim (fun t ht => ⟨t, le_trans ht.1 (by omega), ht.2⟩)⟩

theorem window_zero_last (A : List ℤ) (hA : A ≠ []) :
    window A 0 (A.length - 1) = A := by
  have hlen : 0 < A.length := List.length_pos.mpr hA
  simp only [window, List.drop_zero]
  have h1 : A.length - 1 + 1 - 0 = A.length := by omega
  rw [h1, List.take_length]

theorem quickselectFull_spec (A : List ℤ) (i : ℕ) (hi : i < A.length) :
    ∃ v A1 P1 hs1,
      quickselectFull A i = some (v, A1, P1, hs1) ∧
      v = (isort A).getD i 0 ∧
      ∀ h ∈ hs1, h.pred_h.Perm (List.range A.length) ∧
        ∃ t, t ≤ i ∧ h.target = (t : ℚ) / A.length := by
  have hA : A ≠ [] := by
    intro h
    rw [h] at hi
    simp at hi
  have hlen : 0 < A.length := List.length_pos.mpr hA
  obtain ⟨v, A1, P1, hs1, heq, hv, hh⟩ :=
    quickselectGo_spec A.length A.length A (List.range A.length) 0
      (A.length - 1) i [] (by omega) (by omega)
      (by rw [List.length_range]) (by omega) (by omega)
  refine ⟨v, A1, P1, hs1, heq, ?_, ?_⟩
  · rw [hv, window_zero_last A hA]
  · intro h hmem
    rcases hh h hmem with hmem2 | hmem2
    · exact absurd hmem2 (List.not_mem_nil h)
    · exact hmem2

/-! ### Correctness of the `minimum` scan -/

theorem minimumGo_spec (A : List ℤ) :
    ∀ (fuel i min_ : ℕ),
      i + fuel = A.length → min_ < i →
      (∀ m, m < i → A.getD min_ 0 ≤ A.getD m 0) →
      (∀ m, m < min_ → A.getD min_ 0 < A.getD m 0) →
      (minimumGo fuel i min_ A).2 < A.length ∧
      (∀ m, m < A.length →
        A.getD (minimumGo fuel i min_ A).2 0 ≤ A.getD m 0) ∧
      (∀ m, m < (minimumGo fuel i min_ A).2 →
        A.getD (minimumGo fuel i min_ A).2 0 < A.getD m 0)
  | 0, i, min_, h1, h2, h3, h4 => by
    simp only [minimumGo]
    exact ⟨by omega, fun m hm => h3 m (by omega), h4⟩
  | fuel + 1, i, min_, h1, h2, h3, h4 => by
    simp only [minimumGo]
    by_cases hc : A.getD min_ 0 > A.getD i 0
    · rw [if_pos hc]
      apply minimumGo_spec A fuel (i + 1) i (by omega) (by omega)
      · intro m hm
        rcases Nat.lt_or_ge m i with hmi | hmi
        · exact le_trans (le_of_lt (lt_of_lt_of_le hc (h3 m hmi))) (le_refl _)
        · have : m = i := by omega
          rw [this]
      · intro m hm
        exact lt_of_lt_of_le hc (h3 m hm)
    · rw [if_neg hc]
      apply minimumGo_spec A fuel (i + 1) min_ (by omega) (by omega)
      · intro m hm
        rcases Nat.lt_or_ge m i with hmi | hmi
        · exact h3 m hmi
        · have : m = i := by omega
          rw [this]
          omega
      · exact h4

theorem minimum_spec (A : List ℤ) (hA : A ≠ []) :
    minimum A < A.length ∧
    (∀ m, m < A.length → A.getD (minimum A) 0 ≤ A.getD m 0) ∧
    (∀ m, m < minimum A → A.getD (minimum A) 0 < A.getD m 0) := by
  have hlen : 0 < A.length := List.length_pos.mpr hA
  apply minimumGo_spec A (A.length - 1) 1 0 (by omega) (by omega)
  · intro m hm
    have hm0 : m = 0 := by omega
    rw [hm0]
  · intro m hm
    exact absurd hm (by omega)

theorem minimum_val_eq_isort_head (A : List ℤ) (hA : A ≠ []) :
    A.getD (minimum A) 0 = (isort A).getD 0 0 := by
  obtain ⟨h1, h2, h3⟩ := minimum_spec A hA
  have hlen : 0 < A.length := List.length_pos.mpr hA
  have h0 : 0 < (isort A).length := by rw [isort_length]; omega
  have hmem : (isort A).getD 0 0 ∈ A := by
    have hm1 : (isort A).getD 0 0 ∈ isort A := by
      rw [List.getD_eq_getElem _ _ h0]
      exact List.getElem_mem h0
    exact (isort_perm A).subset hm1
  have hle1 : A.getD (minimum A) 0 ≤ (isort A).getD 0 0 := by
    obtain ⟨m, hm, heq⟩ := List.mem_iff_getElem.mp hmem
    rw [← heq, ← List.getD_eq_getElem A 0 hm]
    exact h2 m hm
  have hmem2 : A.getD (minimum A) 0 ∈ isort A := by
    rw [List.getD_eq_getElem _ _ h1]
    exact (isort_perm A).mem_iff.mpr (List.getElem_mem h1)
  have hle2 : (isort A).getD 0 0 ≤ A.getD (minimum A) 0 := by
    cases hiso : isort A with
    | nil =>
      rw [hiso] at h0
      simp at h0
    | cons a t =>
      have hs := isort_sorted A
      rw [hiso] at hs hmem2
      rw [List.getD_cons_zero]
      rcases List.mem_cons.mp hmem2 with he | he
      · rw [he]
      · exact List.rel_of_sorted_cons hs _ he
  exact le_antisymm hle1 hle2

/-! ### Sorted access helper -/

theorem sorted_getD_mono {A : List ℤ} (hsort : List.Sorted (· ≤ ·) A)
    {a b : ℕ} (hab : a ≤ b) (hb : b < A.length) :
    A.getD a 0 ≤ A.getD b 0 := by
  rcases Nat.eq_or_lt_of_le hab with he | hl
  · rw [he]
  · have ha : a < A.length := by omega
    rw [List.getD_eq_getElem _ _ ha, List.getD_eq_getElem _ _ hb]
    exact List.pairwise_iff_getElem.mp hsort a b ha hb hl

/-! ### Invariants of the binary search loop -/

theorem bsGo_spec (x : ℤ) (A : List ℤ) (hsort : List.Sorted (· ≤ ·) A) :
    ∀ (fuel low high : ℕ),
      high - low ≤ fuel → high < A.length → low ≤ high →
      (∀ m, m < low → A.getD m 0 < x) → x ≤ A.getD high 0 →
      (bsGo x fuel A low high).2.1 ≤ high ∧
      low ≤ (bsGo x fuel A low high).2.1 ∧
      x ≤ A.getD (bsGo x fuel A low high).2.1 0 ∧
      (∀ m, m < (bsGo x fuel A low high).2.1 → A.getD m 0 < x)
  | 0, low, high, hf, hh, hlh, hlow, hhigh => by
    simp only [bsGo]
    exact ⟨le_refl _, hlh, hhigh, fun m hm => hlow m (by omega)⟩
  | fuel + 1, low, high, hf, hh, hlh, hlow, hhigh => by
    by_cases hc : low < high
    · have hmidlt : (low + high) / 2 < high := by omega
      have hmidge : low ≤ (low + high) / 2 := by omega
      by_cases hx : x ≤ A.getD ((low + high) / 2) 0
      · have e1 : (bsGo x (fuel + 1) A low high).2.1 =
            (bsGo x fuel A low ((low + high) / 2)).2.1 := by
          simp only [bsGo, if_pos hc, if_pos hx]
        obtain ⟨c1, c2, c3, c4⟩ := bsGo_spec x A hsort fuel low
          ((low + high) / 2) (by omega) (by omega) hmidge hlow hx
        rw [e1]
        exact ⟨by omega, c2, c3, c4⟩
      · have e1 : (bsGo x (fuel + 1) A low high).2.1 =
            (bsGo x fuel A ((low + high) / 2 + 1) high).2.1 := by
          simp only [bsGo, if_pos hc, if_neg hx]
        have hlow' : ∀ m, m < (low + high) / 2 + 1 → A.getD m 0 < x := by
          intro m hm
          rcases Nat.lt_or_ge m low with hml | hml
          · exact hlow m hml
          · have := sorted_getD_mono hsort (a := m)
              (b := (low + high) / 2) (by omega) (by omega)
            omega
        obtain ⟨c1, c2, c3, c4⟩ := bsGo_spec x A hsort fuel
          ((low + high) / 2 + 1) high (by omega) hh (by omega) hlow' hhigh
        rw [e1]
        exact ⟨c1, by omega, c3, c4⟩
    · have e1 : (bsGo x (fuel + 1) A low high).2.1 = high := by
        simp only [bsGo, if_neg hc]
      rw [e1]
      exact ⟨le_refl _, hlh, hhigh, fun m hm => hlow m (by omega)⟩

theorem bsGo_count_le (x : ℤ) (A : List ℤ) :
    ∀ (fuel low high : ℕ), high - low ≤ fuel →
      (bsGo x fuel A low high).2.2 ≤ Nat.clog 2 (high - low + 1)
  | 0, low, high, hf => by
    simp only [bsGo]
    exact Nat.zero_le _
  | fuel + 1, low, high, hf => by
    by_cases hc : low < high
    · have hL : 2 ≤ high - low + 1 := by omega
      have hclog : Nat.clog 2 (high - low + 1) =
          Nat.clog 2 ((high - low + 1 + 1) / 2) + 1 := by
        rw [Nat.clog_of_two_le one_lt_two hL]
        congr 1
      by_cases hx : x ≤ A.getD ((low + high) / 2) 0
      · have e1 : (bsGo x (fuel + 1) A low high).2.2 =
            (bsGo x fuel A low ((low + high) / 2)).2.2 + 1 := by
          simp only [bsGo, if_pos hc, if_pos hx]
        have ih := bsGo_count_le x A fuel low ((low + high) / 2) (by omega)
        have hmono : Nat.clog 2 ((low + high) / 2 - low + 1) ≤
            Nat.clog 2 ((high - low + 1 + 1) / 2) :=
          Nat.clog_mono_right 2 (by omega)
        rw [e1, hclog]
        omega
      · have e1 : (bsGo x (fuel + 1) A low high).2.2 =
            (bsGo x fuel A ((low + high) / 2 + 1) high).2.2 + 1 := by
          simp only [bsGo, if_pos hc, if_neg hx]
        have ih := bsGo_count_le x A fuel ((low + high) / 2 + 1) high
          (by omega)
        have hmono : Nat.clog 2 (high - ((low + high) / 2 + 1) + 1) ≤
            Nat.clog 2 ((high - low + 1 + 1) / 2) :=
          Nat.clog_mono_right 2 (by omega)
        rw [e1, hclog]
        omega
    · have e1 : (bsGo x (fuel + 1) A low high).2.2 = 0 := by
        simp only [bsGo, if_neg hc]
      rw [e1]
      exact Nat.zero_le _

theorem bsGo_count_pow (x : ℤ) (A : List ℤ) :
    ∀ (fuel k low high : ℕ), high - low ≤ fuel →
      high - low + 1 = 2 ^ k → (bsGo x fuel A low high).2.2 = k
  | 0, k, low, high, hf, hpow => by
    simp only [bsGo]
    match k with
    | 0 => rfl
    | k' + 1 =>
      have h2 : 2 ^ (k' + 1) = 2 * 2 ^ k' := by ring
      have h3 : 1 ≤ 2 ^ k' := Nat.one_le_two_pow
      omega
  | fuel + 1, k, low, high, hf, hpow => by
    by_cases hc : low < high
    · match k with
      | 0 =>
        simp only [pow_zero] at hpow
        omega
      | k' + 1 =>
        have h2 : 2 ^ (k' + 1) = 2 * 2 ^ k' := by ring
        have h3 : 1 ≤ 2 ^ k' := Nat.one_le_two_pow
        by_cases hx : x ≤ A.getD ((low + high) / 2) 0
        · have e1 : (bsGo x (fuel + 1) A low high).2.2 =
              (bsGo x fuel A low ((low + high) / 2)).2.2 + 1 := by
            simp only [bsGo, if_pos hc, if_pos hx]
          have ih := bsGo_count_pow x A fuel k' low ((low + high) / 2)
            (by omega) (by omega)
          omega
        · have e1 : (bsGo x (fuel + 1) A low high).2.2 =
              (bsGo x fuel A ((low + high) / 2 + 1) high).2.2 + 1 := by
            simp only [bsGo, if_pos hc, if_neg hx]
          have ih := bsGo_count_pow x A fuel k' ((low + high) / 2 + 1) high
            (by omega) (by omega)
          omega
    · have e1 : (bsGo x (fuel + 1) A low high).2.2 = 0 := by
        simp only [bsGo, if_neg hc]
      rw [e1]
      match k with
      | 0 => rfl
      | k' + 1 =>
        have h2 : 2 ^ (k' + 1) = 2 * 2 ^ k' := by ring
        have h3 : 1 ≤ 2 ^ k' := Nat.one_le_two_pow
        omega

theorem bsGo_all_lt (x : ℤ) (A : List ℤ)
    (hall : ∀ m, m < A.length → A.getD m 0 < x) :
    ∀ (fuel low high : ℕ), high < A.length →
      (bsGo x fuel A low high).2.1 = high
  | 0, low, high, hh => by
    simp only [bsGo]
  | fuel + 1, low, high, hh => by
    by_cases hc : low < high
    · have hmid : (low + high) / 2 < A.length := by omega
      have hx : ¬ x ≤ A.getD ((low + high) / 2) 0 := by
        have := hall ((low + high) / 2) hmid
        omega
      have e1 : (bsGo x (fuel + 1) A low high).2.1 =
          (bsGo x fuel A ((low + high) / 2 + 1) high).2.1 := by
        simp only [bsGo, if_pos hc, if_neg hx]
      rw [e1]
      exact bsGo_all_lt x A hall fuel ((low + high) / 2 + 1) high hh
    · simp only [bsGo, if_neg hc]

/-! ### Frame lemmas: the searchers never write the input array -/

theorem minimumGo_arr : ∀ (fuel i m : ℕ) (A : List ℤ),
    (minimumGo fuel i m A).1 = A
  | 0, _, _, _ => rfl
  | fuel + 1, i, m, A => by
    simp only [minimumGo]
    exact minimumGo_arr fuel (i + 1) _ A

theorem psGo_arr (x : ℤ) : ∀ (fuel : ℕ) (A B : List ℤ) (i : ℕ),
    (psGo x fuel A B i).1 = A
  | 0, _, _, _ => rfl
  | fuel + 1, A, B, i => by
    by_cases hc : i < A.length ∧ x > A.getD i 0
    · simp only [psGo, if_pos hc]
      exact psGo_arr x fuel A _ _
    · simp only [psGo, if_neg hc]

theorem bsGo_arr (x : ℤ) : ∀ (fuel : ℕ) (A : List ℤ) (low high : ℕ),
    (bsGo x fuel A low high).1 = A
  | 0, _, _, _ => rfl
  | fuel + 1, A, low, high => by
    by_cases hc : low < high
    · by_cases hx : x ≤ A.getD ((low + high) / 2) 0
      · simp only [bsGo, if_pos hc, if_pos hx]
        exact bsGo_arr x fuel A _ _
      · simp only [bsGo, if_pos hc, if_neg hx]
        exact bsGo_arr x fuel A _ _
    · simp only [bsGo, if_neg hc]

/-! ### Invariants of the parallel search scan -/

theorem getD_replicate_lt {n m : ℕ} {a : ℤ} (hm : m < n) :
    (List.replicate n a).getD m 0 = a := by
  have hlen : m < (List.replicate n a).length := by
    rw [List.length_replicate]; exact hm
  rw [List.getD_eq_getElem _ _ hlen, List.getElem_replicate]

theorem psGo_spec (x : ℤ) (A : List ℤ) :
    ∀ (fuel i : ℕ) (B : List ℤ),
      A.length - i ≤ fuel → B.length = A.length → i ≤ A.length →
      (∀ m, m < i → B.getD m 0 = 0 ∧ A.getD m 0 < x) →
      (∀ m, i ≤ m → m < B.length → B.getD m 0 = 1) →
      (psGo x fuel A B i).2.1.length = A.length ∧
      (psGo x fuel A B i).2.2 ≤ A.length ∧
      (∀ m, m < (psGo x fuel A B i).2.2 →
        (psGo x fuel A B i).2.1.getD m 0 = 0 ∧ A.getD m 0 < x) ∧
      (∀ m, (psGo x fuel A B i).2.2 ≤ m → m < A.length →
        (psGo x fuel A B i).2.1.getD m 0 = 1) ∧
      ((psGo x fuel A B i).2.2 < A.length →
        x ≤ A.getD (psGo x fuel A B i).2.2 0)
  | 0, i, B, hf, hB, hi, hinv0, hinv1 => by
    have hieq : i = A.length := by omega
    simp only [psGo]
    exact ⟨hB, hi, fun m hm => hinv0 m hm,
      fun m hm1 hm2 => hinv1 m hm1 (by omega),
      fun hlt => absurd hlt (by omega)⟩
  | fuel + 1, i, B, hf, hB, hi, hinv0, hinv1 => by
    by_cases hc : i < A.length ∧ x > A.getD i 0
    · have e0 : psGo x (fuel + 1) A B i = psGo x fuel A (B.set i 0) (i + 1) := by
        simp only [psGo, if_pos hc]
      have hiB : i < B.length := by omega
      have hinv0' : ∀ m, m < i + 1 →
          (B.set i 0).getD m 0 = 0 ∧ A.getD m 0 < x := by
        intro m hm
        rcases Nat.lt_or_ge m i with hmi | hmi
        · rw [getD_set_ne (by omega)]
          exact hinv0 m hmi
        · have hmeq : m = i := by omega
          subst hmeq
          exact ⟨getD_set_self hiB, hc.2⟩
      have hinv1' : ∀ m, i + 1 ≤ m → m < (B.set i 0).length →
          (B.set i 0).getD m 0 = 1 := by
        intro m hm1 hm2
        rw [getD_set_ne (by omega)]
        exact hinv1 m (by omega) (by simpa using hm2)
      rw [e0]
      exact psGo_spec x A fuel (i + 1) (B.set i 0) (by omega)
        (by simp [hB]) (by omega) hinv0' hinv1'
    · have e0 : psGo x (fuel + 1) A B i = (A, B, i) := by
        simp only [psGo, if_neg hc]
      rw [e0]
      exact ⟨hB, hi, fun m hm => hinv0 m hm,
        fun m hm1 hm2 => hinv1 m hm1 (by omega),
        fun hlt => by
          rcases not_and_or.mp hc with h | h
          · exact absurd hlt h
          · exact le_of_not_lt h⟩

/-! ### Claim theorems -/

/-- Claim C1: for every array `A` and every valid rank `i < len A`,
`quickselect A i` returns the `i`-th smallest value of `A` (the entry at
index `i` of the ascending reference sort); in particular at rank 0 it
returns the minimal value, agreeing with the element `minimum` selects. -/
theorem quickselect_selects_ith_smallest (A : List ℤ) (i : ℕ)
    (hi : i < A.length) :
    quickselect A i = some ((isort A).getD i 0) ∧
    quickselect A 0 = some (A.getD (minimum A) 0) := by
  have main : ∀ j, j < A.length →
      quickselect A j = some ((isort A).getD j 0) := by
    intro j hj
    obtain ⟨v, A1, P1, hs1, heq, hv, _⟩ := quickselectFull_spec A j hj
    rw [quickselect, heq]
    simp only [Option.map_some']
    rw [hv]
  have hA : A ≠ [] := by
    intro h
    subst h
    simp at hi
  exact ⟨main i hi, by
    rw [main 0 (by omega), minimum_val_eq_isort_head A hA]⟩

/-- Witness for C1 at `A = [5,3,8,1]`, `i = 0` (expected value 1). -/
theorem quickselect_selects_ith_smallest_witness :
    0 < List.length ([5, 3, 8, 1] : List ℤ) ∧
    (quickselect [5, 3, 8, 1] 0 = some ((isort [5, 3, 8, 1]).getD 0 0) ∧
     quickselect [5, 3, 8, 1] 0 =
       some (([5, 3, 8, 1] : List ℤ).getD (minimum [5, 3, 8, 1]) 0)) :=
  ⟨by decide, quickselect_selects_ith_smallest [5, 3, 8, 1] 0 (by decide)⟩

/-- Claim C2: for a non-empty ascending-sorted array and a target not
above the maximum, `binary_search` returns the smallest index whose
entry is `≥` the target. -/
theorem binary_search_lower_bound (x : ℤ) (A : List ℤ) (hA : A ≠ [])
    (hsort : List.Sorted (· ≤ ·) A)
    (hx : x ≤ A.getD (A.length - 1) 0) :
    binary_search x A < A.length ∧
    x ≤ A.getD (binary_search x A) 0 ∧
    ∀ m, m < binary_search x A → A.getD m 0 < x := by
  have hlen : 0 < A.length := List.length_pos.mpr hA
  obtain ⟨c1, c2, c3, c4⟩ := bsGo_spec x A hsort A.length 0 (A.length - 1)
    (by omega) (by omega) (by omega)
    (fun m hm => absurd hm (by omega)) hx
  simp only [binary_search]
  exact ⟨by omega, c3, c4⟩

/-- Witness for C2 at `binary_search 4 [1,3,4,8]` (expected index 2). -/
theorem binary_search_lower_bound_witness :
    ([1, 3, 4, 8] : List ℤ) ≠ [] ∧
    List.Sorted (· ≤ ·) ([1, 3, 4, 8] : List ℤ) ∧
    (4 : ℤ) ≤ ([1, 3, 4, 8] : List ℤ).getD
      (List.length ([1, 3, 4, 8] : List ℤ) - 1) 0 ∧
    (binary_search 4 [1, 3, 4, 8] < List.length ([1, 3, 4, 8] : List ℤ) ∧
     (4 : ℤ) ≤ ([1, 3, 4, 8] : List ℤ).getD (binary_search 4 [1, 3, 4, 8]) 0 ∧
     ∀ m, m < binary_search 4 [1, 3, 4, 8] →
       ([1, 3, 4, 8] : List ℤ).getD m 0 < 4) :=
  ⟨by decide, by decide, by decide,
    binary_search_lower_bound 4 [1, 3, 4, 8] (by decide) (by decide)
      (by decide)⟩

/-- Claim C3: `minimum` returns the lowest index at which the minimal
value occurs: its entry is `≤` every entry, and every strictly earlier
entry is strictly larger (first occurrence retained on ties). -/
theorem minimum_first_min_index (A : List ℤ) (hA : A ≠ []) :
    minimum A < A.length ∧
    (∀ m, m < A.length → A.getD (minimum A) 0 ≤ A.getD m 0) ∧
    (∀ m, m < minimum A → A.getD (minimum A) 0 < A.getD m 0) :=
  minimum_spec A hA

/-- Witness for C3 at `[2,1,3,1]` (duplicate minima; expected index 1). -/
theorem minimum_first_min_index_witness :
    ([2, 1, 3, 1] : List ℤ) ≠ [] ∧
    (minimum [2, 1, 3, 1] < List.length ([2, 1, 3, 1] : List ℤ) ∧
     (∀ m, m < List.length ([2, 1, 3, 1] : List ℤ) →
       ([2, 1, 3, 1] : List ℤ).getD (minimum [2, 1, 3, 1]) 0 ≤
         ([2, 1, 3, 1] : List ℤ).getD m 0) ∧
     (∀ m, m < minimum [2, 1, 3, 1] →
       ([2, 1, 3, 1] : List ℤ).getD (minimum [2, 1, 3, 1]) 0 <
         ([2, 1, 3, 1] : List ℤ).getD m 0)) :=
  ⟨by decide, minimum_first_min_index [2, 1, 3, 1] (by decide)⟩

/-- Claim C4: in every HINT pushed during a top-level `quickselect` run
with a valid rank, the position array snapshot `pred_h` is a permutation
of `0..n-1`. -/
theorem qsHints_pos_array_perm (A : List ℤ) (i : ℕ) (hi : i < A.length) :
    ∀ h ∈ qsHints A i, h.pred_h.Perm (List.range A.length) := by
  obtain ⟨v, A1, P1, hs1, heq, _, hh⟩ := quickselectFull_spec A i hi
  intro h hmem
  have hm2 : h ∈ hs1 := by
    simp only [qsHints, heq] at hmem
    exact hmem
  exact (hh h hm2).1

/-- Witness for C4: the first HINT of `quickselect [5,3,8,1] 0`. -/
theorem qsHints_pos_array_perm_witness :
    0 < List.length ([5, 3, 8, 1] : List ℤ) ∧
    (⟨[0, 1, 2, 3], 0, 3, 0, 0, 0, 0⟩ : QSHint) ∈ qsHints [5, 3, 8, 1] 0 ∧
    (⟨[0, 1, 2, 3], 0, 3, 0, 0, 0, 0⟩ : QSHint).pred_h.Perm
      (List.range (List.length ([5, 3, 8, 1] : List ℤ))) :=
  ⟨by decide, by decide,
    qsHints_pos_array_perm [5, 3, 8, 1] 0 (by decide) _ (by decide)⟩

/-- Claim C5, counterexample: on `[2,1]` with top-level rank `i = 1`
(`n = 2`), not every HINT's `target` field equals `i / n = 1/2`: the
third HINT (pushed by the recursive call on the right subwindow, whose
rank argument is `i - k - 1 = 0`) carries `0`. -/
theorem qsHints_target_varies :
    ¬ ∀ h ∈ qsHints [2, 1] 1, h.target = (1 : ℚ) / 2 := by
  intro hall
  have h1 : (⟨[1, 0], 0, 0, 0, 0, 0, 0⟩ : QSHint) ∈ qsHints [2, 1] 1 := by
    decide
  have h2 := hall _ h1
  norm_num at h2

/-- Claim C5 amended: every HINT's `target` field is `t / n` where `t`
is the rank argument of the recursive call that pushed it (so `t ≤` the
top-level rank `i`, and the normalisation is always by the original
array length `n`); it is constant while recursing left but drops when
recursing into the right subwindow, so it is not constant across
recursive calls in general. -/
theorem qsHints_target_normalized (A : List ℤ) (i : ℕ) (hi : i < A.length) :
    ∀ h ∈ qsHints A i, ∃ t, t ≤ i ∧ h.target = (t : ℚ) / A.length := by
  obtain ⟨v, A1, P1, hs1, heq, _, hh⟩ := quickselectFull_spec A i hi
  intro h hmem
  have hm2 : h ∈ hs1 := by
    simp only [qsHints, heq] at hmem
    exact hmem
  exact (hh h hm2).2

/-- Witness for the amended C5: the closing HINT of the second partition
call of `quickselect [2,1] 1` carries target `0 / 2`. -/
theorem qsHints_target_normalized_witness :
    1 < List.length ([2, 1] : List ℤ) ∧
    (⟨[1, 0], 0, 0, 0, 0, 0, 0⟩ : QSHint) ∈ qsHints [2, 1] 1 ∧
    ∃ t : ℕ, t ≤ 1 ∧ (⟨[1, 0], 0, 0, 0, 0, 0, 0⟩ : QSHint).target =
      (t : ℚ) / List.length ([2, 1] : List ℤ) :=
  ⟨by decide, by decide,
    qsHints_target_normalized [2, 1] 1 (by decide)
      ⟨[1, 0], 0, 0, 0, 0, 0, 0⟩ (by decide)⟩

/-- Claim C6, counterexample: on the unsorted array `[5,1]` with target
`3`, the HINT mask is `[1,1]` although `A[1] = 1 < 3`, so `B[k]` is not
`0` exactly when `A[k] < target` for arbitrary arrays: the scan stops at
the first `A[k] ≥ target`. -/
theorem parallel_search_mask_not_pointwise :
    ¬ ∀ k, k < List.length ([5, 1] : List ℤ) →
      (psB 3 [5, 1]).getD k 0 =
        if ([5, 1] : List ℤ).getD k 0 < 3 then 0 else 1 := by decide

/-- Claim C6 amended: for a non-empty ascending-sorted array and a
target not above the maximum, `parallel_search` pushes exactly one HINT
whose mask `B` satisfies `B[k] = 0` iff `A[k] < target`, and its OUTPUT
is the smallest index holding a `1` (a raw index, not one-hot). -/
theorem parallel_search_sorted_spec (x : ℤ) (A : List ℤ) (hA : A ≠ [])
    (hsort : List.Sorted (· ≤ ·) A)
    (hx : x ≤ A.getD (A.length - 1) 0) :
    (psHints x A).length = 1 ∧
    (∀ k, k < A.length →
      (psB x A).getD k 0 = if A.getD k 0 < x then 0 else 1) ∧
    psResult x A < A.length ∧
    (psB x A).getD (psResult x A) 0 = 1 ∧
    (∀ m, m < psResult x A → (psB x A).getD m 0 = 0) := by
  have hlen : 0 < A.length := List.length_pos.mpr hA
  obtain ⟨s1, s2, s3, s4, s5⟩ := psGo_spec x A A.length 0
    (List.replicate A.length 1) (by omega) (by rw [List.length_replicate])
    (by omega) (fun m hm => absurd hm (by omega))
    (fun m _ hm2 => getD_replicate_lt (by rwa [List.length_replicate] at hm2))
  have hdefB : psB x A =
      (psGo x A.length A (List.replicate A.length 1) 0).2.1 := rfl
  have hdefR : psResult x A =
      (psGo x A.length A (List.replicate A.length 1) 0).2.2 := rfl
  have hres : (psGo x A.length A (List.replicate A.length 1) 0).2.2 <
      A.length := by
    by_contra hcon
    have heq : (psGo x A.length A (List.replicate A.length 1) 0).2.2 =
        A.length := by omega
    obtain ⟨_, hlt⟩ := s3 (A.length - 1) (by omega)
    omega
  rw [hdefB, hdefR]
  refine ⟨rfl, ?_, hres, s4 _ (le_refl _) hres, fun m hm => (s3 m hm).1⟩
  intro k hk
  rcases Nat.lt_or_ge k
      (psGo x A.length A (List.replicate A.length 1) 0).2.2 with hki | hki
  · obtain ⟨hB0, hAk⟩ := s3 k hki
    rw [hB0, if_pos hAk]
  · have hB1 := s4 k hki hk
    have hxk : x ≤ A.getD k 0 :=
      le_trans (s5 hres) (sorted_getD_mono hsort hki hk)
    rw [hB1, if_neg (not_lt.mpr hxk)]

/-- Witness for the amended C6 at `parallel_search 6 [1,3,4,8]`
(expected mask `[0,0,0,1]`, result 3). -/
theorem parallel_search_sorted_spec_witness :
    ([1, 3, 4, 8] : List ℤ) ≠ [] ∧
    List.Sorted (· ≤ ·) ([1, 3, 4, 8] : List ℤ) ∧
    (6 : ℤ) ≤ ([1, 3, 4, 8] : List ℤ).getD
      (List.length ([1, 3, 4, 8] : List ℤ) - 1) 0 ∧
    ((psHints 6 [1, 3, 4, 8]).length = 1 ∧
     (∀ k, k < List.length ([1, 3, 4, 8] : List ℤ) →
       (psB 6 [1, 3, 4, 8]).getD k 0 =
         if ([1, 3, 4, 8] : List ℤ).getD k 0 < 6 then 0 else 1) ∧
     psResult 6 [1, 3, 4, 8] < List.length ([1, 3, 4, 8] : List ℤ) ∧
     (psB 6 [1, 3, 4, 8]).getD (psResult 6 [1, 3, 4, 8]) 0 = 1 ∧
     (∀ m, m < psResult 6 [1, 3, 4, 8] →
       (psB 6 [1, 3, 4, 8]).getD m 0 = 0)) :=
  ⟨by decide, by decide, by decide,
    parallel_search_sorted_spec 6 [1, 3, 4, 8] (by decide) (by decide)
      (by decide)⟩

/-- Claim C7, counterexample: on the sorted array `[1,2,3]` with target
`3`, `binary_search` pushes 2 HINTs, not `1 + ⌈log₂ 3⌉ = 3`: the loop
takes the `low = mid + 1` branch, whose window shrinks faster when `n`
is not a power of two. -/
theorem binary_search_hint_count_not_exact :
    bsHintCount 3 [1, 2, 3] ≠
      1 + Nat.clog 2 (List.length ([1, 2, 3] : List ℤ)) := by
  have h1 : bsHintCount 3 [1, 2, 3] = 2 := by decide
  have h2 : Nat.clog 2 3 = 2 := by
    rw [Nat.clog_of_two_le one_lt_two (by norm_num),
      show (3 + 2 - 1) / 2 = 2 from rfl,
      Nat.clog_of_two_le one_lt_two (by norm_num),
      show (2 + 2 - 1) / 2 = 1 from rfl,
      Nat.clog_one_right]
  rw [show List.length ([1, 2, 3] : List ℤ) = 3 from rfl]
  omega

/-- Claim C7 amended: for every non-empty array and every target,
`binary_search` pushes at most `1 + ⌈log₂ n⌉` HINTs (one initial HINT
plus one per loop iteration), and exactly `1 + k` HINTs for every
target when `n = 2 ^ k`. -/
theorem binary_search_hint_count (x : ℤ) (A : List ℤ) (hA : A ≠ []) :
    bsHintCount x A ≤ 1 + Nat.clog 2 A.length ∧
    ∀ k, A.length = 2 ^ k → bsHintCount x A = 1 + k := by
  have hlen : 0 < A.length := List.length_pos.mpr hA
  constructor
  · have hcount := bsGo_count_le x A A.length 0 (A.length - 1) (by omega)
    have he : A.length - 1 - 0 + 1 = A.length := by omega
    rw [he] at hcount
    simp only [bsHintCount]
    omega
  · intro k hk
    have hcount := bsGo_count_pow x A A.length k 0 (A.length - 1)
      (by omega) (by omega)
    simp only [bsHintCount]
    omega

/-- Witness for the amended C7 at `n = 4 = 2^2`, target `5`. -/
theorem binary_search_hint_count_witness :
    ([1, 2, 3, 4] : List ℤ) ≠ [] ∧
    (bsHintCount 5 [1, 2, 3, 4] ≤
       1 + Nat.clog 2 (List.length ([1, 2, 3, 4] : List ℤ)) ∧
     ∀ k, List.length ([1, 2, 3, 4] : List ℤ) = 2 ^ k →
       bsHintCount 5 [1, 2, 3, 4] = 1 + k) :=
  ⟨by decide, binary_search_hint_count 5 [1, 2, 3, 4] (by decide)⟩

/-- Claim C8: for a non-empty sorted array whose maximum is below the
target, `binary_search` returns the last index `n - 1` (no error and no
"not found" signal; the embedding is total). -/
theorem binary_search_target_above_max (x : ℤ) (A : List ℤ) (hA : A ≠ [])
    (hsort : List.Sorted (· ≤ ·) A)
    (hx : A.getD (A.length - 1) 0 < x) :
    binary_search x A = A.length - 1 := by
  have hlen : 0 < A.length := List.length_pos.mpr hA
  have hall : ∀ m, m < A.length → A.getD m 0 < x := fun m hm =>
    lt_of_le_of_lt (sorted_getD_mono hsort (by omega) (by omega)) hx
  simp only [binary_search]
  exact bsGo_all_lt x A hall A.length 0 (A.length - 1) (by omega)

/-- Witness for C8 at `binary_search 9 [1,3,4,8]` (expected index 3). -/
theorem binary_search_target_above_max_witness :
    ([1, 3, 4, 8] : List ℤ) ≠ [] ∧
    List.Sorted (· ≤ ·) ([1, 3, 4, 8] : List ℤ) ∧
    ([1, 3, 4, 8] : List ℤ).getD
      (List.length ([1, 3, 4, 8] : List ℤ) - 1) 0 < 9 ∧
    binary_search 9 [1, 3, 4, 8] = List.length ([1, 3, 4, 8] : List ℤ) - 1 :=
  ⟨by decide, by decide, by decide,
    binary_search_target_above_max 9 [1, 3, 4, 8] (by decide) (by decide)
      (by decide)⟩

/-- Claim C9: `minimum`, `parallel_find`, `parallel_search` and
`binary_search` never write their input array: threading the array
through every loop state returns it unchanged; only `quickselect`
reorders it in place (witnessed on `[2,1]`, which it returns as
`[1,2]`). -/
theorem searchers_preserve_array :
    (∀ (fuel i m : ℕ) (A : List ℤ), (minimumGo fuel i m A).1 = A) ∧
    (∀ (x : ℤ) (A : List ℤ), (parallel_find x A).1 = A) ∧
    (∀ (x : ℤ) (fuel : ℕ) (A B : List ℤ) (i : ℕ),
      (psGo x fuel A B i).1 = A) ∧
    (∀ (x : ℤ) (fuel : ℕ) (A : List ℤ) (low high : ℕ),
      (bsGo x fuel A low high).1 = A) ∧
    (quickselectFull [2, 1] 0).map (fun z => z.2.1) ≠
      some ([2, 1] : List ℤ) :=
  ⟨minimumGo_arr, fun _ _ => rfl, psGo_arr, bsGo_arr, by decide⟩

/-- Claim C10: when every element is strictly below the target,
`parallel_search` completes (totally) and returns `len A` — one past
the end — with its single HINT mask all zeros. -/
theorem parallel_search_all_below (x : ℤ) (A : List ℤ) (hA : A ≠ [])
    (hall : ∀ m, m < A.length → A.getD m 0 < x) :
    psResult x A = A.length ∧
    psB x A = List.replicate A.length 0 ∧
    (psHints x A).length = 1 := by
  obtain ⟨s1, s2, s3, s4, s5⟩ := psGo_spec x A A.length 0
    (List.replicate A.length 1) (by omega) (by rw [List.length_replicate])
    (by omega) (fun m hm => absurd hm (by omega))
    (fun m _ hm2 => getD_replicate_lt (by rwa [List.length_replicate] at hm2))
  have hdefB : psB x A =
      (psGo x A.length A (List.replicate A.length 1) 0).2.1 := rfl
  have hdefR : psResult x A =
      (psGo x A.length A (List.replicate A.length 1) 0).2.2 := rfl
  have hres : (psGo x A.length A (List.replicate A.length 1) 0).2.2 =
      A.length := by
    by_contra hcon
    have hlt : (psGo x A.length A (List.replicate A.length 1) 0).2.2 <
        A.length := by omega
    have h1 := s5 hlt
    have h2 := hall _ hlt
    omega
  rw [hdefB, hdefR]
  refine ⟨hres, ?_, rfl⟩
  apply List.ext_getElem (by rw [s1, List.length_replicate])
  intro m h1 h2
  have hmlen : m < A.length := by rw [s1] at h1; exact h1
  have hB0 : (psGo x A.length A (List.replicate A.length 1) 0).2.1.getD m 0 =
      0 := (s3 m (by omega)).1
  rw [List.getElem_replicate, ← List.getD_eq_getElem _ 0 h1, hB0]

/-- Witness for C10 at `parallel_search 9 [1,3,4,8]` (expected result 4,
mask `[0,0,0,0]`). -/
theorem parallel_search_all_below_witness :
    ([1, 3, 4, 8] : List ℤ) ≠ [] ∧
    (∀ m, m < List.length ([1, 3, 4, 8] : List ℤ) →
      ([1, 3, 4, 8] : List ℤ).getD m 0 < 9) ∧
    (psResult 9 [1, 3, 4, 8] = List.length ([1, 3, 4, 8] : List ℤ) ∧
     psB 9 [1, 3, 4, 8] =
       List.replicate (List.length ([1, 3, 4, 8] : List ℤ)) 0 ∧
     (psHints 9 [1, 3, 4, 8]).length = 1) :=
  ⟨by decide, by decide,
    parallel_search_all_below 9 [1, 3, 4, 8] (by decide) (by decide)⟩

end Searching
